import Mathlib

/-!
Verification development for the Mercurial-Signatures repository
(`mercurial_signature_scheme.py`, `delegatable_anon_cred_scheme.py`).

Modelling conventions (shallow embedding):

* The BN254 pairing library (out-of-scope layer L0 of the design) provides two
  prime-order groups `G1 = <p>` and `G2 = <phat>` of prime order `r`, a target
  group `GT` and a bilinear pairing `e : G2 x G1 -> GT` (the MIRACL `pair.e`
  convention takes the `ECp2` argument first).  Every element of a cyclic group
  of order `r` is a scalar multiple of the generator, so we represent a group
  element by its discrete logarithm in `ZMod r` relative to the fixed
  generator, and a `GT` value by its discrete logarithm relative to
  `e(phat, p)`; the pairing then becomes multiplication of exponents and the
  `GT` group operation becomes addition of exponents.
* Python is dynamically typed: `nym_list` mixes `ECp` and `ECp2` values, and a
  group operation applied to points of distinct groups raises.  We model a
  point as a tagged value `Pt` (constructor `g1` or `g2`) and an operation
  that would raise returns `none`.
* `big.invmodp y r` is the modular inverse, i.e. field inversion in `ZMod r`;
  Python `psi * rho * z` multiplies the two scalars as integers before the
  scalar multiplication, which agrees with the `ZMod r` product.
* Randomness: every `random_zp()` call of the source is made an explicit
  argument (a scalar, or a stream of scalars consumed in call order).
* A failing `assert`, an `IndexError` and a `TypeError` are all fatal in the
  source; the embedding returns `none` for each of them.
-/

namespace MercurialSignatures

/-- A point of one of the two source groups, tagged by its group and
represented by its discrete logarithm.  Models the dynamically typed
`ecp.ECp` / `ecp2.ECp2` values of the Python source. -/
inductive Pt (r : ℕ) where
  | g1 : ZMod r → Pt r
  | g2 : ZMod r → Pt r
deriving DecidableEq

variable {r : ℕ}

/-- The fixed generator `self.p` of `G1` (`ecp.generator()`). -/
def pgen : Pt r := Pt.g1 1

/-- The fixed generator `self.phat` of `G2` (`ecp2.generator()`). -/
def phat : Pt r := Pt.g2 1

/-- Scalar multiplication `x * point`; works on either group, as in the
source. -/
def smul (a : ZMod r) : Pt r → Pt r
  | Pt.g1 e => Pt.g1 (a * e)
  | Pt.g2 e => Pt.g2 (a * e)

/-- Point addition `a.add(b)`; adding points of distinct groups raises in
Python, which we model by `none`. -/
def padd : Pt r → Pt r → Option (Pt r)
  | Pt.g1 a, Pt.g1 b => some (Pt.g1 (a + b))
  | Pt.g2 a, Pt.g2 b => some (Pt.g2 (a + b))
  | _, _ => none

/-- The pairing `pair.e`, which takes its `ECp2` argument first and its `ECp`
argument second; any other combination raises in Python (`none` here).  The
result is the exponent of the `GT` value relative to `e(phat, pgen)`. -/
def pairE : Pt r → Pt r → Option (ZMod r)
  | Pt.g2 a, Pt.g1 b => some (a * b)
  | _, _ => none

/-- Evaluate a Python list comprehension whose body may raise: the whole list
is built, failing if any element fails. -/
def mapOpt : List α → (α → Option β) → Option (List β)
  | [], _ => some []
  | a :: l, f =>
    match f a with
    | none => none
    | some b =>
      match mapOpt l f with
      | none => none
      | some bs => some (b :: bs)

/-- `functools.reduce` of point addition over a nonempty tail. -/
def addAll : Pt r → List (Pt r) → Option (Pt r)
  | a, [] => some a
  | a, b :: l =>
    match padd a b with
    | some s => addAll s l
    | none => none

/-- `functools.reduce(lambda a, b: a.add(b), ...)`: raises (`none`) on the
empty list, otherwise left-folds point addition. -/
def reduceAdd : List (Pt r) → Option (Pt r)
  | [] => none
  | a :: l => addAll a l

/-- `functools.reduce(lambda a, b: a * b, ...)` over `GT` values (exponents
add): raises (`none`) on the empty list. -/
def reduceMul : List (ZMod r) → Option (ZMod r)
  | [] => none
  | a :: l => some (l.foldl (· + ·) a)

/-- A signature triple `(z, y_inv_p, y_inv_phat)` as returned by `sign`;
written `(z, y, ŷ)` in the design document. -/
structure Sig (r : ℕ) where
  z : Pt r
  y : Pt r
  yhat : Pt r
deriving DecidableEq

namespace MercurialSignatureScheme

/-- `MercurialSignatureScheme.key_gen` (the primary variant): `ell` secret
scalars, public key `w = x * phat` in `G2`.  The sampled scalars are the
stream `rnd`. -/
def key_gen (ell : ℕ) (rnd : ℕ → ZMod r) : List (Pt r) × List (ZMod r) :=
  ((List.range ell).map (fun i => smul (rnd i) phat), (List.range ell).map rnd)

/-- `MercurialSignatureScheme.sign`: `z = y * Σ xi * mi` over
`zip(secret_key, message)` (the zip silently truncates to the shorter list),
`y_inv_p = y⁻¹ * p`, `y_inv_phat = y⁻¹ * phat`.  The internally sampled `y`
is explicit.  `none` models the `TypeError` of `reduce` on an empty zip or of
adding points of distinct groups. -/
def sign (secret_key : List (ZMod r)) (message : List (Pt r)) (y : ZMod r) :
    Option (Sig r) :=
  match reduceAdd ((secret_key.zip message).map (fun xm => smul xm.1 xm.2)) with
  | none => none
  | some s0 => some ⟨smul y s0, smul y⁻¹ pgen, smul y⁻¹ phat⟩

/-- `MercurialSignatureScheme.verify`: checks
`Π e(Xi, mi) = e(ŷ, z)` and `e(phat, y) = e(ŷ, p)`, with Python's
short-circuit `and` (the second pair of pairings is only evaluated when the
first comparison succeeds). -/
def verify (public_key message : List (Pt r)) (s : Sig r) : Option Bool :=
  match mapOpt (public_key.zip message) (fun xm => pairE xm.1 xm.2) with
  | none => none
  | some es =>
    match reduceMul es with
    | none => none
    | some q1 =>
      match pairE s.yhat s.z with
      | none => none
      | some t1 =>
        if q1 = t1 then
          match pairE phat s.y, pairE s.yhat pgen with
          | some t2, some t3 => some (decide (t2 = t3))
          | _, _ => none
        else some false

/-- `convert_secret_key`: `[rho * xi]`. -/
def convert_secret_key (secret_key : List (ZMod r)) (rho : ZMod r) :
    List (ZMod r) :=
  secret_key.map (fun x => rho * x)

/-- `convert_public_key`: `[rho * Xi]`. -/
def convert_public_key (public_key : List (Pt r)) (rho : ZMod r) :
    List (Pt r) :=
  public_key.map (fun X => smul rho X)

/-- `convert_signature`: `(psi * rho * z, psi⁻¹ * y, psi⁻¹ * ŷ)` with the
internally sampled `psi` explicit.  The `public_key` and `message` arguments
are accepted and ignored, as in the source. -/
def convert_signature (public_key message : List (Pt r)) (s : Sig r)
    (rho psi : ZMod r) : Sig r :=
  ⟨smul (psi * rho) s.z, smul psi⁻¹ s.y, smul psi⁻¹ s.yhat⟩

/-- `change_representation`: message scaled by `mu`, signature
`(psi * mu * z, psi⁻¹ * y, psi⁻¹ * ŷ)` with the sampled `psi` explicit.  The
`public_key` argument is accepted and ignored, as in the source. -/
def change_representation (public_key message : List (Pt r)) (s : Sig r)
    (mu psi : ZMod r) : List (Pt r) × Sig r :=
  (message.map (fun m => smul mu m),
   ⟨smul (psi * mu) s.z, smul psi⁻¹ s.y, smul psi⁻¹ s.yhat⟩)

/-- The bounded search `while not hm_point.set(hm): hm = hm + 1` of
`hash_message`; `setX` is the library routine `ecp.ECp().set` viewed through
the discrete-log representation, and the fuel bounds the (in practice short)
search. -/
def findPoint (setX : ℕ → Option (ZMod r)) : ℕ → ℕ → Option (ZMod r)
  | 0, _ => none
  | fuel + 1, hm =>
    match setX hm with
    | some e => some e
    | none => findPoint setX fuel (hm + 1)

/-- `MercurialSignatureScheme.hash_message`: SHAKE-256 digest of the input
(`shakeN`, the hashlib/`big.from_bytes` composite of the out-of-scope
library), search for a valid curve point, then multiply by the curve constant
`curve.x`.  No randomness is sampled. -/
def hash_message (shakeN : String → ℕ) (setX : ℕ → Option (ZMod r))
    (curveX : ZMod r) (fuel : ℕ) (message : String) : Option (Pt r) :=
  match findPoint setX fuel (shakeN message) with
  | none => none
  | some e => some (smul curveX (Pt.g1 e))

end MercurialSignatureScheme

namespace MercurialSignatureDual

/-- `MercurialSignatureDual.key_gen`: public key `w = x * p` in `G1`. -/
def key_gen (ell : ℕ) (rnd : ℕ → ZMod r) : List (Pt r) × List (ZMod r) :=
  ((List.range ell).map (fun i => smul (rnd i) pgen), (List.range ell).map rnd)

/-- `MercurialSignatureDual.sign`: same `z`, but `y_inv_p = y⁻¹ * phat` and
`y_inv_phat = y⁻¹ * p` (note the swapped generators in the source). -/
def sign (secret_key : List (ZMod r)) (message : List (Pt r)) (y : ZMod r) :
    Option (Sig r) :=
  match reduceAdd ((secret_key.zip message).map (fun xm => smul xm.1 xm.2)) with
  | none => none
  | some s0 => some ⟨smul y s0, smul y⁻¹ phat, smul y⁻¹ pgen⟩

/-- `MercurialSignatureDual.verify`: checks `Π e(mi, Xi) = e(z, ŷ)` and
`e(y, p) = e(phat, ŷ)`, with Python's short-circuit `and`. -/
def verify (public_key message : List (Pt r)) (s : Sig r) : Option Bool :=
  match mapOpt (public_key.zip message) (fun xm => pairE xm.2 xm.1) with
  | none => none
  | some es =>
    match reduceMul es with
    | none => none
    | some q1 =>
      match pairE s.z s.yhat with
      | none => none
      | some t1 =>
        if q1 = t1 then
          match pairE s.y pgen, pairE phat s.yhat with
          | some t2, some t3 => some (decide (t2 = t3))
          | _, _ => none
        else some false

/-- `convert_secret_key` is inherited unchanged from the base class. -/
def convert_secret_key (secret_key : List (ZMod r)) (rho : ZMod r) :
    List (ZMod r) :=
  MercurialSignatureScheme.convert_secret_key secret_key rho

/-- `convert_public_key` is inherited unchanged from the base class. -/
def convert_public_key (public_key : List (Pt r)) (rho : ZMod r) :
    List (Pt r) :=
  MercurialSignatureScheme.convert_public_key public_key rho

/-- `convert_signature` is inherited unchanged from the base class. -/
def convert_signature (public_key message : List (Pt r)) (s : Sig r)
    (rho psi : ZMod r) : Sig r :=
  MercurialSignatureScheme.convert_signature public_key message s rho psi

/-- `change_representation` is inherited unchanged from the base class. -/
def change_representation (public_key message : List (Pt r)) (s : Sig r)
    (mu psi : ZMod r) : List (Pt r) × Sig r :=
  MercurialSignatureScheme.change_representation public_key message s mu psi

/-- `MercurialSignatureDual.hash_message`: the source returns
`big.rand(curve.r) * ecp2.generator()` -- a freshly sampled random scalar
(explicit here) times the `G2` generator; the input string is ignored. -/
def hash_message (message : String) (rand : ZMod r) : Pt r :=
  smul rand phat

end MercurialSignatureDual

/-- A Python value as stored in the dynamically typed `initial_nym` field:
either a list of points, `None`, or a tuple. -/
inductive PyObj (r : ℕ) where
  | pts : List (Pt r) → PyObj r
  | noneV : PyObj r
  | tup : PyObj r → PyObj r → PyObj r
deriving DecidableEq

/-- The state held by a `DelegatableAnonCredScheme` instance. -/
structure DAC (r : ℕ) where
  key_length : ℕ
  initial_pk : List (Pt r)
  initial_sk : List (ZMod r)
  initial_nym : PyObj r

/-- A credential chain `(nym_list, sig_list)`. -/
abbrev Chain (r : ℕ) := List (List (Pt r)) × List (Sig r)

/-- `DelegatableAnonCredScheme.__init__`: the root key pair is generated by
`self.even_issuer_scheme.key_gen`, where `even_issuer_scheme` is
`MercurialSignatureDual`; `initial_nym` is the tuple `(initial_pk, None)`. -/
def dacInit (key_length : ℕ) (rnd : ℕ → ZMod r) : DAC r :=
  let kg := MercurialSignatureDual.key_gen key_length rnd
  { key_length := key_length
    initial_pk := kg.1
    initial_sk := kg.2
    initial_nym := PyObj.tup (PyObj.pts kg.1) PyObj.noneV }

/-- `DelegatableAnonCredScheme.nym_gen`: converts both key pairs with fresh
scalars (explicit here); the `even` pair uses the dual scheme's inherited
conversions, the `odd` pair the primary scheme's. -/
def nym_gen (even_pk : List (Pt r)) (even_sk : List (ZMod r))
    (odd_pk : List (Pt r)) (odd_sk : List (ZMod r)) (even_rho odd_rho : ZMod r) :
    (List (Pt r) × List (ZMod r)) × (List (Pt r) × List (ZMod r)) :=
  ((MercurialSignatureDual.convert_public_key even_pk even_rho,
    MercurialSignatureDual.convert_secret_key even_sk even_rho),
   (MercurialSignatureScheme.convert_public_key odd_pk odd_rho,
    MercurialSignatureScheme.convert_secret_key odd_sk odd_rho))

/-- `DelegatableAnonCredScheme.issue_first`: signs `initial_nym` with
`initial_sk` using `even_issuer_scheme` (= `MercurialSignatureDual`);
the `y` sampled inside `sign` is explicit. -/
def issueFirst (dac : DAC r) (initial_nym : List (Pt r)) (ys : ZMod r) :
    Option (Chain r) :=
  match MercurialSignatureDual.sign dac.initial_sk initial_nym ys with
  | some sg => some ([initial_nym], [sg])
  | none => none

/-- The per-link verifier dispatch of `issue_next` / `verify_chain`:
`odd_issuer_scheme` (= `MercurialSignatureScheme`) when `i % 2 == 0`
(`flag = true`), `even_issuer_scheme` (= `MercurialSignatureDual`) otherwise. -/
def verifyOne (flag : Bool) (pk m : List (Pt r)) (s : Sig r) : Option Bool :=
  if flag then MercurialSignatureScheme.verify pk m s
  else MercurialSignatureDual.verify pk m s

/-- The loop of `verify_chain`: position `i` (flag `true` iff `i` even)
verifies `sig_list[i+1]` over `nym_list[i+1]` under `nym_list[i]`. -/
def verifyLinks (flag : Bool) (prev : List (Pt r)) :
    List (List (Pt r)) → List (Sig r) → Option Bool
  | [], [] => some true
  | nym :: nt, sg :: st =>
    match verifyOne flag prev nym sg with
    | some true => verifyLinks (!flag) nym nt st
    | some false => some false
    | none => none
  | _, _ => none

/-- `DelegatableAnonCredScheme.verify_chain`: asserts equal lengths (`none`
on failure), verifies `sig_list[0]` with `even_issuer_scheme.verify`
(= `MercurialSignatureDual.verify`) under `initial_pk` (an empty chain raises
an `IndexError`, `none`), then runs the link loop. -/
def verifyChain (dac : DAC r) (c : Chain r) : Option Bool :=
  if c.1.length = c.2.length then
    match c.1, c.2 with
    | n0 :: nt, s0 :: st =>
      match MercurialSignatureDual.verify dac.initial_pk n0 s0 with
      | some true => verifyLinks true n0 nt st
      | some false => some false
      | none => none
    | _, _ => none
  else none

/-- The re-randomisation loop of `issue_next`.  At each step the current
`rho` converts `sig_list[i+1]`, a fresh `rho` is sampled, the representation
of link `i+1` is changed with it, and the link is asserted to verify.  Both
dispatch targets of `issuer_scheme.convert_signature` and
`issuer_scheme.change_representation` are the same inherited base-class
method, so the transformation is variant-independent; only the `assert`'s
`verify` dispatches (via `verifyOne`).  The stream `rnd` yields, for
iteration `i`, the triple (psi of `convert_signature`, fresh `rho`, psi of
`change_representation`).  Returns the updated tails and the final `rho`. -/
def rerandLinks (flag : Bool) (pkNym : List (Pt r)) (rho : ZMod r)
    (rnd : ℕ → ZMod r × ZMod r × ZMod r) :
    List (List (Pt r)) → List (Sig r) →
    Option (List (List (Pt r)) × List (Sig r) × ZMod r)
  | [], [] => some ([], [], rho)
  | nym :: nt, sg :: st =>
    let psic := (rnd 0).1
    let rho2 := (rnd 0).2.1
    let psir := (rnd 0).2.2
    let sgt := MercurialSignatureScheme.convert_signature pkNym nym sg rho psic
    let ns := MercurialSignatureScheme.change_representation pkNym nym sgt rho2 psir
    match verifyOne flag pkNym ns.1 ns.2 with
    | some true =>
      match rerandLinks (!flag) ns.1 rho2 (fun n => rnd (n + 1)) nt st with
      | some (nt2, st2, rhoF) => some (ns.1 :: nt2, ns.2 :: st2, rhoF)
      | none => none
    | _ => none
  | _, _ => none

/-- `DelegatableAnonCredScheme.issue_next`.  Asserts equal lengths, changes
the representation of position 0 with a fresh `rho0` (psi `psi0`), asserts it
verifies under `initial_pk` with `even_issuer_scheme.verify`, re-randomises
every link (`rerandLinks`), appends `new_nym`, converts `sk` with the final
`rho`, signs `new_nym` with the variant selected by the parity of the new
chain length, and asserts the new link verifies.  Every failing assert (and
every raising group operation) is `none`. -/
def issueNext (dac : DAC r) (c : Chain r) (new_nym : List (Pt r))
    (sk : List (ZMod r)) (rho0 psi0 : ZMod r)
    (rnd : ℕ → ZMod r × ZMod r × ZMod r) (ys : ZMod r) : Option (Chain r) :=
  if c.1.length = c.2.length then
    match c.1, c.2 with
    | n0 :: nt, s0 :: st =>
      let h0 := MercurialSignatureDual.change_representation dac.initial_pk n0 s0 rho0 psi0
      match MercurialSignatureDual.verify dac.initial_pk h0.1 h0.2 with
      | some true =>
        match rerandLinks true h0.1 rho0 rnd nt st with
        | some (nt2, st2, rhoF) =>
          let flagNew := (nt.length + 2) % 2 == 0
          let sk2 := MercurialSignatureScheme.convert_secret_key sk rhoF
          match (if flagNew then MercurialSignatureScheme.sign sk2 new_nym ys
                 else MercurialSignatureDual.sign sk2 new_nym ys) with
          | some sgNew =>
            match verifyOne flagNew (nt2.getLastD h0.1) new_nym sgNew with
            | some true =>
              some (h0.1 :: nt2 ++ [new_nym], h0.2 :: st2 ++ [sgNew])
            | _ => none
          | none => none
        | none => none
      | _ => none
    | _, _ => none
  else none

/-- The data of one `issue_next` call in a legal delegation sequence: the
incoming user's (already `nym_gen`-converted) secret key and the scalars the
call samples internally. -/
structure IssueStep (r : ℕ) where
  sk : List (ZMod r)
  rho0 : ZMod r
  psi0 : ZMod r
  rnd : ℕ → ZMod r × ZMod r × ZMod r
  ys : ZMod r

/-- Run a sequence of `issue_next` calls the way the repository's test does:
the previous user's secret key signs, and the incoming user's pseudonym has
the group parity required for its chain position. -/
def buildSteps (dac : DAC r) :
    List (ZMod r) → Chain r → List (IssueStep r) → Option (Chain r)
  | _, c, [] => some c
  | prevSk, c, s :: ss =>
    let newNym := s.sk.map (fun x =>
      smul x (if c.1.length % 2 = 1 then pgen else phat))
    match issueNext dac c newNym prevSk s.rho0 s.psi0 s.rnd s.ys with
    | some c2 => buildSteps dac s.sk c2 ss
    | none => none

/-- `issue_first` followed by the given `issue_next` calls, starting from the
first user's pseudonym `nym1 = [x * phat]` (a primary-variant pseudonym, as
the repository's test passes `nym_odd1`). -/
def buildChain (dac : DAC r) (sk1 : List (ZMod r)) (y1 : ZMod r)
    (steps : List (IssueStep r)) : Option (Chain r) :=
  match issueFirst dac (sk1.map (fun x => smul x phat)) y1 with
  | some c => buildSteps dac sk1 c steps
  | none => none

/-- The link loop of `verify_chain` as the examined claim words it: the link
at position `i` is checked with the dual variant when `i` is even and with
the primary variant when `i` is odd. -/
def verifyLinksClaimed (i : ℕ) (prev : List (Pt r)) :
    List (List (Pt r)) → List (Sig r) → Option Bool
  | [], [] => some true
  | nym :: nt, sg :: st =>
    match (if i % 2 = 0 then MercurialSignatureDual.verify prev nym sg
           else MercurialSignatureScheme.verify prev nym sg) with
    | some true => verifyLinksClaimed (i + 1) nym nt st
    | some false => some false
    | none => none
  | _, _ => none

/-- `verify_chain` as the examined claim words it: `sig_list[0]` is checked
with the primary variant's `verify` under `initial_pk`, and link `i` with the
dual variant when `i` is even. -/
def verifyChainClaimed (dac : DAC r) (c : Chain r) : Option Bool :=
  if c.1.length = c.2.length then
    match c.1, c.2 with
    | n0 :: nt, s0 :: st =>
      match MercurialSignatureScheme.verify dac.initial_pk n0 s0 with
      | some true => verifyLinksClaimed 0 n0 nt st
      | some false => some false
      | none => none
    | _, _ => none
  else none

/-- The link loop of `verify_chain` as amended: the link at position `i` is
checked with the primary variant (`odd_issuer_scheme`) when `i` is even and
with the dual variant (`even_issuer_scheme`) when `i` is odd. -/
def verifyLinksAmended (i : ℕ) (prev : List (Pt r)) :
    List (List (Pt r)) → List (Sig r) → Option Bool
  | [], [] => some true
  | nym :: nt, sg :: st =>
    match (if i % 2 = 0 then MercurialSignatureScheme.verify prev nym sg
           else MercurialSignatureDual.verify prev nym sg) with
    | some true => verifyLinksAmended (i + 1) nym nt st
    | some false => some false
    | none => none
  | _, _ => none

/-- `verify_chain` as amended: `sig_list[0]` is checked with the dual
variant's `verify` under `initial_pk`, and link `i` with the primary variant
when `i` is even. -/
def verifyChainAmended (dac : DAC r) (c : Chain r) : Option Bool :=
  if c.1.length = c.2.length then
    match c.1, c.2 with
    | n0 :: nt, s0 :: st =>
      match MercurialSignatureDual.verify dac.initial_pk n0 s0 with
      | some true => verifyLinksAmended 0 n0 nt st
      | some false => some false
      | none => none
    | _, _ => none
  else none

/-- 5 is prime (used by the concrete witnesses, which run the schemes over
the order-5 model group). -/
instance : Fact (Nat.Prime 5) := ⟨by norm_num⟩

section BasicLemmas

variable {r : ℕ}

@[simp] theorem smul_g1 (a e : ZMod r) : smul a (Pt.g1 e) = Pt.g1 (a * e) := rfl

@[simp] theorem smul_g2 (a e : ZMod r) : smul a (Pt.g2 e) = Pt.g2 (a * e) := rfl

@[simp] theorem smul_pgen (a : ZMod r) : smul a pgen = Pt.g1 a := by
  simp [pgen, smul]

@[simp] theorem smul_phat (a : ZMod r) : smul a phat = Pt.g2 a := by
  simp [phat, smul]

theorem smul_smul_pt (a b : ZMod r) (P : Pt r) :
    smul a (smul b P) = smul (a * b) P := by
  cases P <;> simp [smul, mul_assoc]

@[simp] theorem pairE_g2_g1 (a b : ZMod r) :
    pairE (Pt.g2 a) (Pt.g1 b) = some (a * b) := rfl

theorem pairE_smul_left (a : ZMod r) (X Y : Pt r) :
    pairE (smul a X) Y = (pairE X Y).map (fun t => a * t) := by
  cases X <;> cases Y <;> simp [smul, pairE, mul_assoc]

theorem pairE_smul_right (b : ZMod r) (X Y : Pt r) :
    pairE X (smul b Y) = (pairE X Y).map (fun t => b * t) := by
  cases X <;> cases Y <;> simp [smul, pairE, mul_left_comm]

@[simp] theorem mapOpt_nil (f : α → Option β) : mapOpt [] f = some [] := rfl

theorem mapOpt_map (l : List α) (g : α → γ) (f : γ → Option β) :
    mapOpt (l.map g) f = mapOpt l (fun a => f (g a)) := by
  induction l with
  | nil => rfl
  | cons a l ih => simp [mapOpt, ih]

theorem mapOpt_congr {l : List α} {f g : α → Option β}
    (h : ∀ a ∈ l, f a = g a) : mapOpt l f = mapOpt l g := by
  induction l with
  | nil => rfl
  | cons a l ih =>
    simp only [mapOpt, h a (by simp)]
    rw [ih (fun a ha => h a (by simp [ha]))]

theorem mapOpt_opt_map (l : List α) (f : α → Option β) (h : β → γ) :
    mapOpt l (fun a => (f a).map h) = (mapOpt l f).map (List.map h) := by
  induction l with
  | nil => rfl
  | cons a l ih =>
    simp only [mapOpt, ih]
    cases f a <;> cases mapOpt l f <;> simp

theorem mapOpt_some (l : List α) (f : α → β) :
    mapOpt l (fun a => some (f a)) = some (l.map f) := by
  induction l with
  | nil => rfl
  | cons a l ih => simp [mapOpt, ih]

theorem foldl_add_eq (l : List (ZMod r)) :
    ∀ a : ZMod r, l.foldl (· + ·) a = a + l.sum := by
  induction l with
  | nil => simp
  | cons b t ih => intro a; simp [ih, add_assoc]

theorem reduceMul_cons (a : ZMod r) (l : List (ZMod r)) :
    reduceMul (a :: l) = some (a + l.sum) := by
  simp [reduceMul, foldl_add_eq]

theorem sum_map_mul (c : ZMod r) (l : List (ZMod r)) :
    (l.map (fun t => c * t)).sum = c * l.sum := by
  induction l with
  | nil => simp
  | cons a t ih => simp [ih, mul_add]

theorem reduceMul_map_mul (c : ZMod r) (es : List (ZMod r)) :
    reduceMul (es.map (fun t => c * t)) = (reduceMul es).map (fun t => c * t) := by
  cases es with
  | nil => rfl
  | cons a l => simp [reduceMul_cons, sum_map_mul, mul_add]

theorem addAll_g1 (l : List (ZMod r)) :
    ∀ a : ZMod r, addAll (Pt.g1 a) (l.map Pt.g1) = some (Pt.g1 (a + l.sum)) := by
  induction l with
  | nil => intro a; simp [addAll]
  | cons b t ih => intro a; simp [addAll, padd, ih, add_assoc]

theorem addAll_g2 (l : List (ZMod r)) :
    ∀ a : ZMod r, addAll (Pt.g2 a) (l.map Pt.g2) = some (Pt.g2 (a + l.sum)) := by
  induction l with
  | nil => intro a; simp [addAll]
  | cons b t ih => intro a; simp [addAll, padd, ih, add_assoc]

theorem reduceAdd_g1 (a : ZMod r) (l : List (ZMod r)) :
    reduceAdd ((a :: l).map Pt.g1) = some (Pt.g1 (a + l.sum)) := by
  simp [reduceAdd, addAll_g1]

theorem reduceAdd_g2 (a : ZMod r) (l : List (ZMod r)) :
    reduceAdd ((a :: l).map Pt.g2) = some (Pt.g2 (a + l.sum)) := by
  simp [reduceAdd, addAll_g2]

end BasicLemmas

section VerifyCharacterization

variable {r : ℕ}

/-- What `MercurialSignatureScheme.verify pk M s = some true` unfolds to. -/
theorem mss_verify_true_iff (pk M : List (Pt r)) (s : Sig r) :
    MercurialSignatureScheme.verify pk M s = some true ↔
      ∃ es q1 t1 t2 t3,
        mapOpt (pk.zip M) (fun xm => pairE xm.1 xm.2) = some es ∧
        reduceMul es = some q1 ∧
        pairE s.yhat s.z = some t1 ∧ q1 = t1 ∧
        pairE phat s.y = some t2 ∧ pairE s.yhat pgen = some t3 ∧ t2 = t3 := by
  constructor
  · intro h
    unfold MercurialSignatureScheme.verify at h
    split at h
    · exact absurd h (by simp)
    next es hes =>
      split at h
      · exact absurd h (by simp)
      next q1 hq1 =>
        split at h
        · exact absurd h (by simp)
        next t1 ht1 =>
          split at h
          next hq1t1 =>
            split at h
            next t2 t3 ht2 ht3 =>
              refine ⟨es, q1, t1, t2, t3, hes, hq1, ht1, hq1t1, ht2, ht3, ?_⟩
              simpa using h
            next => exact absurd h (by simp)
          next => exact absurd h (by simp)
  · rintro ⟨es, q1, t1, t2, t3, hes, hq1, ht1, hq1t1, ht2, ht3, ht23⟩
    simp [MercurialSignatureScheme.verify, hes, hq1, ht1, hq1t1, ht2, ht3, ht23]

/-- What `MercurialSignatureDual.verify pk M s = some true` unfolds to. -/
theorem msd_verify_true_iff (pk M : List (Pt r)) (s : Sig r) :
    MercurialSignatureDual.verify pk M s = some true ↔
      ∃ es q1 t1 t2 t3,
        mapOpt (pk.zip M) (fun xm => pairE xm.2 xm.1) = some es ∧
        reduceMul es = some q1 ∧
        pairE s.z s.yhat = some t1 ∧ q1 = t1 ∧
        pairE s.y pgen = some t2 ∧ pairE phat s.yhat = some t3 ∧ t2 = t3 := by
  constructor
  · intro h
    unfold MercurialSignatureDual.verify at h
    split at h
    · exact absurd h (by simp)
    next es hes =>
      split at h
      · exact absurd h (by simp)
      next q1 hq1 =>
        split at h
        · exact absurd h (by simp)
        next t1 ht1 =>
          split at h
          next hq1t1 =>
            split at h
            next t2 t3 ht2 ht3 =>
              refine ⟨es, q1, t1, t2, t3, hes, hq1, ht1, hq1t1, ht2, ht3, ?_⟩
              simpa using h
            next => exact absurd h (by simp)
          next => exact absurd h (by simp)
  · rintro ⟨es, q1, t1, t2, t3, hes, hq1, ht1, hq1t1, ht2, ht3, ht23⟩
    simp [MercurialSignatureDual.verify, hes, hq1, ht1, hq1t1, ht2, ht3, ht23]

end VerifyCharacterization

section MoreBasic

variable {r : ℕ}

theorem zip_ne_nil {a : List α} {b : List β} (ha : a ≠ []) (hb : b ≠ []) :
    a.zip b ≠ [] := by
  cases a with
  | nil => exact absurd rfl ha
  | cons x xs =>
    cases b with
    | nil => exact absurd rfl hb
    | cons y ys => simp

theorem reduceAdd_g1_nonempty (l : List (ZMod r)) (h : l ≠ []) :
    reduceAdd (l.map Pt.g1) = some (Pt.g1 l.sum) := by
  cases l with
  | nil => exact absurd rfl h
  | cons a t => rw [reduceAdd_g1]; simp

theorem reduceAdd_g2_nonempty (l : List (ZMod r)) (h : l ≠ []) :
    reduceAdd (l.map Pt.g2) = some (Pt.g2 l.sum) := by
  cases l with
  | nil => exact absurd rfl h
  | cons a t => rw [reduceAdd_g2]; simp

theorem reduceMul_nonempty (l : List (ZMod r)) (h : l ≠ []) :
    reduceMul l = some l.sum := by
  cases l with
  | nil => exact absurd rfl h
  | cons a t => rw [reduceMul_cons]; simp

/-- Closed form of `MercurialSignatureScheme.sign` on a `G1` message. -/
theorem mss_sign_g1 {r : ℕ} (sk es : List (ZMod r)) (h : sk.zip es ≠ []) (y : ZMod r) :
    MercurialSignatureScheme.sign sk (es.map Pt.g1) y =
      some ⟨Pt.g1 (y * ((sk.zip es).map (fun q => q.1 * q.2)).sum),
            Pt.g1 y⁻¹, Pt.g2 y⁻¹⟩ := by
  unfold MercurialSignatureScheme.sign
  rw [List.zip_map_right, List.map_map]
  rw [show ((fun xm : ZMod r × Pt r => smul xm.1 xm.2) ∘ Prod.map id Pt.g1)
      = (fun q : ZMod r × ZMod r => Pt.g1 (q.1 * q.2)) from
    funext (fun q => by simp [Prod.map])]
  rw [show (List.map (fun q : ZMod r × ZMod r => Pt.g1 (q.1 * q.2)) (sk.zip es))
      = ((sk.zip es).map (fun q => q.1 * q.2)).map Pt.g1 from by
    rw [List.map_map]; rfl]
  rw [reduceAdd_g1_nonempty _ (by simpa using h)]
  simp

/-- Closed form of `MercurialSignatureDual.sign` on a `G2` message. -/
theorem msd_sign_g2 {r : ℕ} (sk es : List (ZMod r)) (h : sk.zip es ≠ []) (y : ZMod r) :
    MercurialSignatureDual.sign sk (es.map Pt.g2) y =
      some ⟨Pt.g2 (y * ((sk.zip es).map (fun q => q.1 * q.2)).sum),
            Pt.g2 y⁻¹, Pt.g1 y⁻¹⟩ := by
  unfold MercurialSignatureDual.sign
  rw [List.zip_map_right, List.map_map]
  rw [show ((fun xm : ZMod r × Pt r => smul xm.1 xm.2) ∘ Prod.map id Pt.g2)
      = (fun q : ZMod r × ZMod r => Pt.g2 (q.1 * q.2)) from
    funext (fun q => by simp [Prod.map])]
  rw [show (List.map (fun q : ZMod r × ZMod r => Pt.g2 (q.1 * q.2)) (sk.zip es))
      = ((sk.zip es).map (fun q => q.1 * q.2)).map Pt.g2 from by
    rw [List.map_map]; rfl]
  rw [reduceAdd_g2_nonempty _ (by simpa using h)]
  simp

end MoreBasic

section TransportLemmas

variable {r : ℕ} [Fact (Nat.Prime r)]

/-- `change_representation` preserves a verifying primary signature, for any
`mu` and any nonzero `psi`. -/
theorem mss_verify_changeRep {pk M : List (Pt r)} {s : Sig r} (mu : ZMod r)
    {psi : ZMod r} (hpsi : psi ≠ 0)
    (h : MercurialSignatureScheme.verify pk M s = some true) :
    MercurialSignatureScheme.verify pk (M.map (fun m => smul mu m))
      ⟨smul (psi * mu) s.z, smul psi⁻¹ s.y, smul psi⁻¹ s.yhat⟩ = some true := by
  rcases (mss_verify_true_iff pk M s).1 h with
    ⟨es, q1, t1, t2, t3, hes, hq1, ht1, hq1t1, ht2, ht3, ht23⟩
  apply (mss_verify_true_iff _ _ _).2
  refine ⟨es.map (fun t => mu * t), mu * q1, psi⁻¹ * (psi * mu * t1),
    psi⁻¹ * t2, psi⁻¹ * t3, ?_, ?_, ?_, ?_, ?_, ?_, ?_⟩
  · rw [List.zip_map_right, mapOpt_map]
    rw [mapOpt_congr (g := fun xm => (pairE xm.1 xm.2).map (fun t => mu * t))
      (fun a _ => by simp [pairE_smul_right])]
    rw [mapOpt_opt_map, hes]
    rfl
  · rw [reduceMul_map_mul, hq1]
    rfl
  · rw [pairE_smul_left, pairE_smul_right, ht1]
    rfl
  · rw [hq1t1, mul_assoc psi mu t1, inv_mul_cancel_left₀ hpsi]
  · rw [pairE_smul_right, ht2]
    rfl
  · rw [pairE_smul_left, ht3]
    rfl
  · rw [ht23]

/-- `convert_signature` together with `convert_public_key` preserves a
verifying primary signature, for any `rho` and any nonzero `psi`. -/
theorem mss_verify_convert {pk M : List (Pt r)} {s : Sig r} (rho : ZMod r)
    {psi : ZMod r} (hpsi : psi ≠ 0)
    (h : MercurialSignatureScheme.verify pk M s = some true) :
    MercurialSignatureScheme.verify (pk.map (fun X => smul rho X)) M
      ⟨smul (psi * rho) s.z, smul psi⁻¹ s.y, smul psi⁻¹ s.yhat⟩ = some true := by
  rcases (mss_verify_true_iff pk M s).1 h with
    ⟨es, q1, t1, t2, t3, hes, hq1, ht1, hq1t1, ht2, ht3, ht23⟩
  apply (mss_verify_true_iff _ _ _).2
  refine ⟨es.map (fun t => rho * t), rho * q1, psi⁻¹ * (psi * rho * t1),
    psi⁻¹ * t2, psi⁻¹ * t3, ?_, ?_, ?_, ?_, ?_, ?_, ?_⟩
  · rw [List.zip_map_left, mapOpt_map]
    rw [mapOpt_congr (g := fun xm => (pairE xm.1 xm.2).map (fun t => rho * t))
      (fun a _ => by simp [pairE_smul_left])]
    rw [mapOpt_opt_map, hes]
    rfl
  · rw [reduceMul_map_mul, hq1]
    rfl
  · rw [pairE_smul_left, pairE_smul_right, ht1]
    rfl
  · rw [hq1t1, mul_assoc psi rho t1, inv_mul_cancel_left₀ hpsi]
  · rw [pairE_smul_right, ht2]
    rfl
  · rw [pairE_smul_left, ht3]
    rfl
  · rw [ht23]

/-- `change_representation` preserves a verifying dual signature. -/
theorem msd_verify_changeRep {pk M : List (Pt r)} {s : Sig r} (mu : ZMod r)
    {psi : ZMod r} (hpsi : psi ≠ 0)
    (h : MercurialSignatureDual.verify pk M s = some true) :
    MercurialSignatureDual.verify pk (M.map (fun m => smul mu m))
      ⟨smul (psi * mu) s.z, smul psi⁻¹ s.y, smul psi⁻¹ s.yhat⟩ = some true := by
  rcases (msd_verify_true_iff pk M s).1 h with
    ⟨es, q1, t1, t2, t3, hes, hq1, ht1, hq1t1, ht2, ht3, ht23⟩
  apply (msd_verify_true_iff _ _ _).2
  refine ⟨es.map (fun t => mu * t), mu * q1, psi * mu * (psi⁻¹ * t1),
    psi⁻¹ * t2, psi⁻¹ * t3, ?_, ?_, ?_, ?_, ?_, ?_, ?_⟩
  · rw [List.zip_map_right, mapOpt_map]
    rw [mapOpt_congr (g := fun xm => (pairE xm.2 xm.1).map (fun t => mu * t))
      (fun a _ => by simp [pairE_smul_left])]
    rw [mapOpt_opt_map, hes]
    rfl
  · rw [reduceMul_map_mul, hq1]
    rfl
  · rw [pairE_smul_left, pairE_smul_right, ht1]
    rfl
  · rw [hq1t1]
    have hrw : psi * mu * (psi⁻¹ * t1) = psi * psi⁻¹ * (mu * t1) := by ring
    rw [hrw, mul_inv_cancel₀ hpsi, one_mul]
  · rw [pairE_smul_left, ht2]
    rfl
  · rw [pairE_smul_right, ht3]
    rfl
  · rw [ht23]

/-- `convert_signature` together with `convert_public_key` preserves a
verifying dual signature. -/
theorem msd_verify_convert {pk M : List (Pt r)} {s : Sig r} (rho : ZMod r)
    {psi : ZMod r} (hpsi : psi ≠ 0)
    (h : MercurialSignatureDual.verify pk M s = some true) :
    MercurialSignatureDual.verify (pk.map (fun X => smul rho X)) M
      ⟨smul (psi * rho) s.z, smul psi⁻¹ s.y, smul psi⁻¹ s.yhat⟩ = some true := by
  rcases (msd_verify_true_iff pk M s).1 h with
    ⟨es, q1, t1, t2, t3, hes, hq1, ht1, hq1t1, ht2, ht3, ht23⟩
  apply (msd_verify_true_iff _ _ _).2
  refine ⟨es.map (fun t => rho * t), rho * q1, psi * rho * (psi⁻¹ * t1),
    psi⁻¹ * t2, psi⁻¹ * t3, ?_, ?_, ?_, ?_, ?_, ?_, ?_⟩
  · rw [List.zip_map_left, mapOpt_map]
    rw [mapOpt_congr (g := fun xm => (pairE xm.2 xm.1).map (fun t => rho * t))
      (fun a _ => by simp [pairE_smul_right])]
    rw [mapOpt_opt_map, hes]
    rfl
  · rw [reduceMul_map_mul, hq1]
    rfl
  · rw [pairE_smul_left, pairE_smul_right, ht1]
    rfl
  · rw [hq1t1]
    have hrw : psi * rho * (psi⁻¹ * t1) = psi * psi⁻¹ * (rho * t1) := by ring
    rw [hrw, mul_inv_cancel₀ hpsi, one_mul]
  · rw [pairE_smul_left, ht2]
    rfl
  · rw [pairE_smul_right, ht3]
    rfl
  · rw [ht23]

end TransportLemmas

section SignCorrect

variable {r : ℕ} [Fact (Nat.Prime r)]

/-- A primary signature produced by `sign` under a key pair of `key_gen`
shape verifies (P1, primary variant). -/
theorem mss_sign_then_verify (sk es : List (ZMod r)) (hsk : sk ≠ [])
    (hes : es ≠ []) (y : ZMod r) (hy : y ≠ 0) :
    ∃ sg, MercurialSignatureScheme.sign sk (es.map Pt.g1) y = some sg ∧
      MercurialSignatureScheme.verify (sk.map (fun x => smul x phat))
        (es.map Pt.g1) sg = some true := by
  have hz : sk.zip es ≠ [] := zip_ne_nil hsk hes
  refine ⟨_, mss_sign_g1 sk es hz y, ?_⟩
  apply (mss_verify_true_iff _ _ _).2
  set w : List (ZMod r) := (sk.zip es).map (fun q => q.1 * q.2) with hw
  have hwne : w ≠ [] := by simpa [hw] using hz
  refine ⟨w, w.sum, y⁻¹ * (y * w.sum), 1 * y⁻¹, y⁻¹ * 1, ?_, ?_, ?_, ?_, ?_, ?_, ?_⟩
  · simp only [smul_phat]
    rw [List.zip_map, mapOpt_map]
    rw [mapOpt_congr (g := fun q : ZMod r × ZMod r => some (q.1 * q.2))
      (fun a _ => by simp [Prod.map])]
    rw [mapOpt_some]
  · exact reduceMul_nonempty w hwne
  · rfl
  · rw [inv_mul_cancel_left₀ hy]
  · rfl
  · rfl
  · ring

/-- A dual signature produced by `sign` under a key pair of `key_gen` shape
verifies (P1, dual variant). -/
theorem msd_sign_then_verify (sk es : List (ZMod r)) (hsk : sk ≠ [])
    (hes : es ≠ []) (y : ZMod r) (hy : y ≠ 0) :
    ∃ sg, MercurialSignatureDual.sign sk (es.map Pt.g2) y = some sg ∧
      MercurialSignatureDual.verify (sk.map (fun x => smul x pgen))
        (es.map Pt.g2) sg = some true := by
  have hz : sk.zip es ≠ [] := zip_ne_nil hsk hes
  refine ⟨_, msd_sign_g2 sk es hz y, ?_⟩
  apply (msd_verify_true_iff _ _ _).2
  set w : List (ZMod r) := (sk.zip es).map (fun q => q.1 * q.2) with hw
  have hwne : w ≠ [] := by simpa [hw] using hz
  refine ⟨w, w.sum, y * w.sum * y⁻¹, y⁻¹ * 1, 1 * y⁻¹, ?_, ?_, ?_, ?_, ?_, ?_, ?_⟩
  · simp only [smul_pgen]
    rw [List.zip_map, mapOpt_map]
    rw [mapOpt_congr (g := fun q : ZMod r × ZMod r => some (q.1 * q.2))
      (fun a _ => by simp [Prod.map, mul_comm])]
    rw [mapOpt_some]
  · exact reduceMul_nonempty w hwne
  · rfl
  · rw [mul_comm y w.sum, mul_assoc, mul_inv_cancel₀ hy, mul_one]
  · rfl
  · rfl
  · ring

end SignCorrect

section ChainLemmas

variable {r : ℕ}

theorem getLast?_cons_getLastD (a : α) (l : List α) :
    (a :: l).getLast? = some (l.getLastD a) := by
  induction l generalizing a with
  | nil => rfl
  | cons b t ih => rw [List.getLast?_cons_cons, ih, List.getLastD_cons]

theorem verifyOne_changeRep [Fact (Nat.Prime r)] (flag : Bool)
    {pk M : List (Pt r)} {s : Sig r} (mu : ZMod r) {psi : ZMod r}
    (hpsi : psi ≠ 0) (h : verifyOne flag pk M s = some true) :
    verifyOne flag pk (M.map (fun m => smul mu m))
      ⟨smul (psi * mu) s.z, smul psi⁻¹ s.y, smul psi⁻¹ s.yhat⟩ = some true := by
  cases flag with
  | false =>
    simp only [verifyOne, Bool.false_eq_true, if_false] at h ⊢
    exact msd_verify_changeRep mu hpsi h
  | true =>
    simp only [verifyOne, if_true] at h ⊢
    exact mss_verify_changeRep mu hpsi h

theorem verifyOne_convert [Fact (Nat.Prime r)] (flag : Bool)
    {pk M : List (Pt r)} {s : Sig r} (rho : ZMod r) {psi : ZMod r}
    (hpsi : psi ≠ 0) (h : verifyOne flag pk M s = some true) :
    verifyOne flag (pk.map (fun X => smul rho X)) M
      ⟨smul (psi * rho) s.z, smul psi⁻¹ s.y, smul psi⁻¹ s.yhat⟩ = some true := by
  cases flag with
  | false =>
    simp only [verifyOne, Bool.false_eq_true, if_false] at h ⊢
    exact msd_verify_convert rho hpsi h
  | true =>
    simp only [verifyOne, if_true] at h ⊢
    exact mss_verify_convert rho hpsi h

theorem verifyLinks_cons_iff (flag : Bool) (prev nym : List (Pt r))
    (nt : List (List (Pt r))) (sg : Sig r) (st : List (Sig r)) :
    verifyLinks flag prev (nym :: nt) (sg :: st) = some true ↔
      verifyOne flag prev nym sg = some true ∧
      verifyLinks (!flag) nym nt st = some true := by
  constructor
  · intro h
    unfold verifyLinks at h
    split at h
    next hv => exact ⟨hv, h⟩
    next => exact absurd h (by simp)
    next hv hne => exact absurd h (by simp)
  · rintro ⟨h1, h2⟩
    unfold verifyLinks
    rw [h1]
    exact h2

theorem verifyChain_cons_iff (dac : DAC r) (n0 : List (Pt r))
    (nt : List (List (Pt r))) (s0 : Sig r) (st : List (Sig r)) :
    verifyChain dac (n0 :: nt, s0 :: st) = some true ↔
      nt.length = st.length ∧
      MercurialSignatureDual.verify dac.initial_pk n0 s0 = some true ∧
      verifyLinks true n0 nt st = some true := by
  constructor
  · intro h
    unfold verifyChain at h
    dsimp only at h
    split at h
    next hlen =>
      split at h
      next hv => exact ⟨by simpa using hlen, hv, h⟩
      next => exact absurd h (by simp)
      next => exact absurd h (by simp)
    next => exact absurd h (by simp)
  · rintro ⟨hlen, hv, hl⟩
    unfold verifyChain
    dsimp only
    rw [if_pos (by simpa using hlen)]
    simp only [hv]
    exact hl

theorem verifyLinks_append (ns : List (List (Pt r))) :
    ∀ (ss : List (Sig r)) (flag : Bool) (prev a : List (Pt r)) (b : Sig r),
      verifyLinks flag prev ns ss = some true →
      verifyOne (if ns.length % 2 = 0 then flag else !flag)
        (ns.getLastD prev) a b = some true →
      verifyLinks flag prev (ns ++ [a]) (ss ++ [b]) = some true := by
  induction ns with
  | nil =>
    intro ss flag prev a b h hone
    cases ss with
    | nil =>
      simp only [List.length_nil, List.getLastD_nil] at hone
      simp only [List.nil_append]
      rw [verifyLinks_cons_iff]
      exact ⟨by simpa using hone, rfl⟩
    | cons s st => exact absurd h (by simp [verifyLinks])
  | cons n nt ih =>
    intro ss flag prev a b h hone
    cases ss with
    | nil => exact absurd h (by simp [verifyLinks])
    | cons s st =>
      rcases (verifyLinks_cons_iff flag prev n nt s st).1 h with ⟨h1, h2⟩
      simp only [List.cons_append]
      rw [verifyLinks_cons_iff]
      refine ⟨h1, ih st (!flag) n a b h2 ?_⟩
      rw [List.getLastD_cons] at hone
      by_cases hpar : nt.length % 2 = 0
      · rw [if_pos hpar]
        rw [if_neg (by simp [List.length_cons]; omega)] at hone
        exact hone
      · rw [if_neg hpar, Bool.not_not]
        rw [if_pos (by simp [List.length_cons]; omega)] at hone
        exact hone

end ChainLemmas

section RerandSound

variable {r : ℕ}

/-- The loop of `issue_next` succeeds on a chain whose links verify, every
internal assert passes, the re-randomised links still verify, and the last
pseudonym ends up scaled by the final `rho`. -/
theorem rerandLinks_sound [Fact (Nat.Prime r)] :
    ∀ (nyms : List (List (Pt r))) (sigs : List (Sig r)) (flag : Bool)
      (prev : List (Pt r)) (rho : ZMod r) (rnd : ℕ → ZMod r × ZMod r × ZMod r),
      verifyLinks flag prev nyms sigs = some true →
      (∀ i, (rnd i).1 ≠ 0 ∧ (rnd i).2.2 ≠ 0) →
      ∃ nt2 st2 rhoF,
        rerandLinks flag (prev.map (fun X => smul rho X)) rho rnd nyms sigs
          = some (nt2, st2, rhoF) ∧
        verifyLinks flag (prev.map (fun X => smul rho X)) nt2 st2 = some true ∧
        nt2.length = nyms.length ∧ st2.length = sigs.length ∧
        nt2.getLastD (prev.map (fun X => smul rho X))
          = (nyms.getLastD prev).map (fun X => smul rhoF X) := by
  intro nyms
  induction nyms with
  | nil =>
    intro sigs flag prev rho rnd h hrnd
    cases sigs with
    | nil => exact ⟨[], [], rho, rfl, rfl, rfl, rfl, rfl⟩
    | cons sg st => exact absurd h (by simp [verifyLinks])
  | cons nym nt ih =>
    intro sigs flag prev rho rnd h hrnd
    cases sigs with
    | nil => exact absurd h (by simp [verifyLinks])
    | cons sg st =>
      rcases (verifyLinks_cons_iff flag prev nym nt sg st).1 h with ⟨h1, h2⟩
      have hpsic : (rnd 0).1 ≠ 0 := (hrnd 0).1
      have hpsir : (rnd 0).2.2 ≠ 0 := (hrnd 0).2
      have step1 := verifyOne_convert flag rho hpsic h1
      have step2 := verifyOne_changeRep flag ((rnd 0).2.1) hpsir step1
      dsimp only at step2
      rcases ih st (!flag) nym ((rnd 0).2.1) (fun n => rnd (n + 1)) h2
        (fun i => hrnd (i + 1)) with ⟨nt2, st2, rhoF, hrl, hvl, hln, hls, hlast⟩
      refine ⟨nym.map (fun m => smul ((rnd 0).2.1) m) :: nt2,
        (⟨smul ((rnd 0).2.2 * (rnd 0).2.1) (smul ((rnd 0).1 * rho) sg.z),
          smul ((rnd 0).2.2)⁻¹ (smul ((rnd 0).1)⁻¹ sg.y),
          smul ((rnd 0).2.2)⁻¹ (smul ((rnd 0).1)⁻¹ sg.yhat)⟩ : Sig r) :: st2, rhoF,
        ?_, ?_, ?_, ?_, ?_⟩
      · unfold rerandLinks
        simp only [MercurialSignatureScheme.change_representation,
          MercurialSignatureScheme.convert_signature]
        rw [step2, hrl]
      · rw [verifyLinks_cons_iff]
        exact ⟨step2, hvl⟩
      · simp [hln]
      · simp [hls]
      · rw [List.getLastD_cons, List.getLastD_cons]
        exact hlast

end RerandSound

section IssueNextSound

variable {r : ℕ}

/-- Soundness of `issue_next`: on a verifying chain, with a signing key whose
converted form matches the chain's last pseudonym and a fresh pseudonym of
the parity required for the new position, every internal assert passes, the
call returns an extended chain, that chain verifies, and its last pseudonym
is the new one.  All internally sampled `psi` and the signing `y` are
required nonzero (a zero sample is resampled per the design's error
conditions). -/
theorem issueNext_sound [Fact (Nat.Prime r)] (dac : DAC r)
    (nyms : List (List (Pt r))) (sigs : List (Sig r))
    (skL skN : List (ZMod r)) (newNym : List (Pt r))
    (hchain : verifyChain dac (nyms, sigs) = some true)
    (hlast : nyms.getLast? = some (skL.map (fun x =>
      smul x (if nyms.length % 2 = 1 then phat else pgen))))
    (hnew : newNym = skN.map (fun x =>
      smul x (if nyms.length % 2 = 1 then pgen else phat)))
    (hskL : skL ≠ []) (hskN : skN ≠ [])
    (rho0 psi0 : ZMod r) (hpsi0 : psi0 ≠ 0)
    (rnd : ℕ → ZMod r × ZMod r × ZMod r)
    (hrnd : ∀ i, (rnd i).1 ≠ 0 ∧ (rnd i).2.2 ≠ 0)
    (ys : ZMod r) (hys : ys ≠ 0) :
    ∃ c2 : Chain r,
      issueNext dac (nyms, sigs) newNym skL rho0 psi0 rnd ys = some c2 ∧
      verifyChain dac c2 = some true ∧
      c2.1.length = nyms.length + 1 ∧ c2.2.length = sigs.length + 1 ∧
      c2.1.getLast? = some newNym := by
  cases nyms with
  | nil => cases sigs <;> simp [verifyChain] at hchain
  | cons n0 nt =>
    cases sigs with
    | nil => simp [verifyChain] at hchain
    | cons s0 st =>
      rcases (verifyChain_cons_iff dac n0 nt s0 st).1 hchain with ⟨hlen, h0v, hlinks⟩
      have h0' := msd_verify_changeRep rho0 hpsi0 h0v
      rcases rerandLinks_sound nt st true n0 rho0 rnd hlinks hrnd with
        ⟨nt2, st2, rhoF, hrl, hvl, hln, hls, hlastD⟩
      rw [getLast?_cons_getLastD] at hlast
      have hlast1 := Option.some.inj hlast
      set sk2 : List (ZMod r) := MercurialSignatureScheme.convert_secret_key skL rhoF with hsk2
      have hsk2ne : sk2 ≠ [] := by
        simp [hsk2, MercurialSignatureScheme.convert_secret_key, hskL]
      by_cases hpar : (n0 :: nt).length % 2 = 1
      · -- odd chain length: the appended link uses the primary variant
        have hntpar : nt.length % 2 = 0 := by
          simp only [List.length_cons] at hpar; omega
        have hlast2 : nt.getLastD n0 = skL.map (fun x => smul x phat) := by
          simpa only [if_pos hpar] using hlast1
        have hnew1 : newNym = skN.map Pt.g1 := by
          simp only [hnew, if_pos hpar, smul_pgen]
        have pkEq : nt2.getLastD (n0.map (fun X => smul rho0 X))
            = sk2.map (fun x => smul x phat) := by
          rw [hlastD, hlast2, List.map_map, hsk2,
            MercurialSignatureScheme.convert_secret_key, List.map_map]
          exact List.map_congr_left (fun x _ => by
            simp [Function.comp, smul_smul_pt])
        rcases mss_sign_then_verify sk2 skN hsk2ne hskN ys hys with ⟨sgNew, hsgn, hsgv⟩
        have hfin : verifyOne true (nt2.getLastD (n0.map (fun X => smul rho0 X)))
            (skN.map Pt.g1) sgNew = some true := by
          simp only [verifyOne, if_true]
          rw [pkEq]
          exact hsgv
        have hflag : ((nt.length + 2) % 2 == 0) = true := by
          simp only [beq_iff_eq]; omega
        have heq : issueNext dac (n0 :: nt, s0 :: st) newNym skL rho0 psi0 rnd ys
            = some ((n0.map (fun m => smul rho0 m)) :: nt2 ++ [newNym],
              (⟨smul (psi0 * rho0) s0.z, smul psi0⁻¹ s0.y, smul psi0⁻¹ s0.yhat⟩ : Sig r)
                :: st2 ++ [sgNew]) := by
          unfold issueNext
          dsimp only
          rw [if_pos (by simpa using hlen)]
          simp only [MercurialSignatureDual.change_representation,
            MercurialSignatureScheme.change_representation, hnew1]
          simp only [h0', hrl, hflag, if_true, ← hsk2, hsgn, hfin]
        refine ⟨_, heq, ?_, ?_, ?_, ?_⟩
        · refine (verifyChain_cons_iff _ _ _ _ _).2 ⟨by simp [hln, hls, hlen], h0', ?_⟩
          rw [hnew1]
          refine verifyLinks_append nt2 st2 true _ _ _ hvl ?_
          rw [if_pos (by rw [hln]; exact hntpar)]
          exact hfin
        · simp [hln]
        · simp [hls]
        · rw [show (n0.map (fun m => smul rho0 m)) :: nt2 ++ [newNym]
            = ((n0.map (fun m => smul rho0 m)) :: nt2) ++ [newNym] from rfl]
          rw [List.getLast?_concat]
      · -- even chain length: the appended link uses the dual variant
        have hntpar : nt.length % 2 = 1 := by
          simp only [List.length_cons] at hpar; omega
        have hlast2 : nt.getLastD n0 = skL.map (fun x => smul x pgen) := by
          simpa only [if_neg hpar] using hlast1
        have hnew1 : newNym = skN.map Pt.g2 := by
          simp only [hnew, if_neg hpar, smul_phat]
        have pkEq : nt2.getLastD (n0.map (fun X => smul rho0 X))
            = sk2.map (fun x => smul x pgen) := by
          rw [hlastD, hlast2, List.map_map, hsk2,
            MercurialSignatureScheme.convert_secret_key, List.map_map]
          exact List.map_congr_left (fun x _ => by
            simp [Function.comp, smul_smul_pt])
        rcases msd_sign_then_verify sk2 skN hsk2ne hskN ys hys with ⟨sgNew, hsgn, hsgv⟩
        have hfin : verifyOne false (nt2.getLastD (n0.map (fun X => smul rho0 X)))
            (skN.map Pt.g2) sgNew = some true := by
          simp only [verifyOne, Bool.false_eq_true, if_false]
          rw [pkEq]
          exact hsgv
        have hflag : ((nt.length + 2) % 2 == 0) = false := by
          simp only [beq_eq_false_iff_ne]; omega
        have heq : issueNext dac (n0 :: nt, s0 :: st) newNym skL rho0 psi0 rnd ys
            = some ((n0.map (fun m => smul rho0 m)) :: nt2 ++ [newNym],
              (⟨smul (psi0 * rho0) s0.z, smul psi0⁻¹ s0.y, smul psi0⁻¹ s0.yhat⟩ : Sig r)
                :: st2 ++ [sgNew]) := by
          unfold issueNext
          dsimp only
          rw [if_pos (by simpa using hlen)]
          simp only [MercurialSignatureDual.change_representation,
            MercurialSignatureScheme.change_representation, hnew1]
          simp only [h0', hrl, hflag, Bool.false_eq_true, if_false, ← hsk2, hsgn, hfin]
        refine ⟨_, heq, ?_, ?_, ?_, ?_⟩
        · refine (verifyChain_cons_iff _ _ _ _ _).2 ⟨by simp [hln, hls, hlen], h0', ?_⟩
          rw [hnew1]
          refine verifyLinks_append nt2 st2 true _ _ _ hvl ?_
          rw [if_neg (by rw [hln]; omega)]
          exact hfin
        · simp [hln]
        · simp [hls]
        · rw [show (n0.map (fun m => smul rho0 m)) :: nt2 ++ [newNym]
            = ((n0.map (fun m => smul rho0 m)) :: nt2) ++ [newNym] from rfl]
          rw [List.getLast?_concat]

end IssueNextSound

section BuildSound

variable {r : ℕ}

/-- `issue_first` on a pseudonym `[x * phat]` of the first user: the call
succeeds and the resulting one-link chain verifies. -/
theorem issueFirst_sound [Fact (Nat.Prime r)] (ell : ℕ) (hell : 1 ≤ ell)
    (rnd0 : ℕ → ZMod r) (sk1 : List (ZMod r)) (hsk1 : sk1 ≠ [])
    (y1 : ZMod r) (hy1 : y1 ≠ 0) :
    ∃ sg, issueFirst (dacInit ell rnd0) (sk1.map (fun x => smul x phat)) y1
        = some ([sk1.map (fun x => smul x phat)], [sg]) ∧
      verifyChain (dacInit ell rnd0)
        ([sk1.map (fun x => smul x phat)], [sg]) = some true := by
  have hskne : ((List.range ell).map rnd0 : List (ZMod r)) ≠ [] := by
    simp only [ne_eq, List.map_eq_nil_iff, List.range_eq_nil]
    omega
  rcases msd_sign_then_verify ((List.range ell).map rnd0) sk1 hskne hsk1 y1 hy1 with
    ⟨sg, hsgn, hsgv⟩
  have hmsg : (sk1.map (fun x => smul x phat)) = sk1.map Pt.g2 := by
    simp [smul_phat]
  have hpk : ((dacInit ell rnd0 : DAC r).initial_pk)
      = (((List.range ell).map rnd0).map (fun x => smul x pgen)) := by
    simp [dacInit, MercurialSignatureDual.key_gen, List.map_map, Function.comp]
  have hsk : ((dacInit ell rnd0 : DAC r).initial_sk) = (List.range ell).map rnd0 := by
    simp [dacInit, MercurialSignatureDual.key_gen]
  refine ⟨sg, ?_, ?_⟩
  · unfold issueFirst
    rw [hsk, hmsg, hsgn]
  · refine (verifyChain_cons_iff _ _ _ _ _).2 ⟨rfl, ?_, rfl⟩
    rw [hpk, hmsg]
    exact hsgv

/-- Folding `issue_next` over a list of legal steps keeps the chain
verifying. -/
theorem buildSteps_sound [Fact (Nat.Prime r)] (dac : DAC r) :
    ∀ (steps : List (IssueStep r)) (prevSk : List (ZMod r)) (c : Chain r),
      verifyChain dac c = some true →
      c.1.getLast? = some (prevSk.map (fun x =>
        smul x (if c.1.length % 2 = 1 then phat else pgen))) →
      prevSk ≠ [] →
      (∀ s ∈ steps, s.sk ≠ [] ∧ s.psi0 ≠ 0 ∧ s.ys ≠ 0 ∧
        ∀ i, (s.rnd i).1 ≠ 0 ∧ (s.rnd i).2.2 ≠ 0) →
      ∃ c2, buildSteps dac prevSk c steps = some c2 ∧
        verifyChain dac c2 = some true ∧
        c2.1.length = c.1.length + steps.length := by
  intro steps
  induction steps with
  | nil =>
    intro prevSk c hv hlast hprev hsteps
    exact ⟨c, rfl, hv, by simp⟩
  | cons s ss ih =>
    intro prevSk c hv hlast hprev hsteps
    obtain ⟨nyms, sigs⟩ := c
    rcases hsteps s (by simp) with ⟨hskne, hpsi0, hys, hrnd⟩
    rcases issueNext_sound dac nyms sigs prevSk s.sk
      (s.sk.map (fun x => smul x (if nyms.length % 2 = 1 then pgen else phat)))
      hv hlast rfl hprev hskne s.rho0 s.psi0 hpsi0 s.rnd hrnd s.ys hys with
      ⟨c2, heq, hv2, hlen1, hlen2, hglast⟩
    have hgen : (if nyms.length % 2 = 1 then pgen else (phat : Pt r))
        = (if c2.1.length % 2 = 1 then phat else pgen) := by
      rw [hlen1]
      by_cases hp : nyms.length % 2 = 1
      · rw [if_pos hp, if_neg (by omega)]
      · rw [if_neg hp, if_pos (by omega)]
    have hglast2 : c2.1.getLast? = some (s.sk.map (fun x =>
        smul x (if c2.1.length % 2 = 1 then phat else pgen))) := by
      rw [hglast, hgen]
    rcases ih s.sk c2 hv2 hglast2 hskne
      (fun t ht => hsteps t (by simp [ht])) with ⟨c3, heq3, hv3, hlen3⟩
    refine ⟨c3, ?_, hv3, ?_⟩
    · unfold buildSteps
      dsimp only
      rw [heq]
      exact heq3
    · rw [hlen3, hlen1]
      simp only [List.length_cons]
      omega

end BuildSound

section AmendedHelpers

variable {r : ℕ}

theorem zip_eq_zip_take :
    ∀ (l1 : List α) (l2 : List β),
      l1.zip l2 = (l1.take l2.length).zip (l2.take l1.length) := by
  intro l1
  induction l1 with
  | nil => intro l2; simp
  | cons a t1 ih =>
    intro l2
    cases l2 with
    | nil => simp
    | cons b t2 => simp [ih t2]

theorem verifyLinksAmended_eq :
    ∀ (nt : List (List (Pt r))) (st : List (Sig r)) (i : ℕ) (prev : List (Pt r)),
      verifyLinksAmended i prev nt st = verifyLinks (i % 2 == 0) prev nt st := by
  intro nt
  induction nt with
  | nil => intro st i prev; cases st <;> rfl
  | cons nym ntl ih =>
    intro st i prev
    cases st with
    | nil => rfl
    | cons sg stl =>
      have hone : (if i % 2 = 0 then MercurialSignatureScheme.verify prev nym sg
          else MercurialSignatureDual.verify prev nym sg)
          = verifyOne (i % 2 == 0) prev nym sg := by
        unfold verifyOne
        by_cases hp : i % 2 = 0 <;> simp [hp]
      unfold verifyLinksAmended verifyLinks
      rw [hone]
      cases hvo : verifyOne (i % 2 == 0) prev nym sg with
      | none => rfl
      | some b =>
        cases b with
        | false => rfl
        | true =>
          show verifyLinksAmended (i + 1) nym ntl stl
            = verifyLinks (!(i % 2 == 0)) nym ntl stl
          rw [ih stl (i + 1) nym]
          have hflip : ((i + 1) % 2 == 0) = !(i % 2 == 0) := by
            by_cases hp : i % 2 = 0
            · have h1 : (i + 1) % 2 = 1 := by omega
              rw [h1, hp]
              rfl
            · have h0 : i % 2 = 1 := by omega
              have h1 : (i + 1) % 2 = 0 := by omega
              rw [h1, h0]
              rfl
          rw [hflip]

/-- `nym_gen` preserves the key-pair invariant: a pseudonym it returns is the
pointwise scalar multiple of the fixed generator by the converted secret key,
for either variant's generator.  This is the shape assumed of every
pseudonym in the chain-correctness hypotheses. -/
theorem nym_gen_keypair {r : ℕ} (sk : List (ZMod r)) (g : Pt r) (rho : ZMod r) :
    MercurialSignatureScheme.convert_public_key
        (sk.map (fun x => smul x g)) rho
      = (MercurialSignatureScheme.convert_secret_key sk rho).map
        (fun x => smul x g) := by
  unfold MercurialSignatureScheme.convert_public_key
    MercurialSignatureScheme.convert_secret_key
  rw [List.map_map, List.map_map]
  exact List.map_congr_left (fun x _ => by simp [Function.comp, smul_smul_pt])

end AmendedHelpers

section Claims

/-- C2 (counterexample): over the order-5 model group, for the DAC built
with `key_length = 1` and sampled root scalar 2, the root public key is not
of primary-variant shape (`sk * phat`, a `G2` point) -- it is the `G1` point
`2 * p`; moreover a concrete two-link chain accepted by `verify_chain` is
not accepted (the pairing raises) by the claim's version of `verify_chain`,
which checks position 0 with the primary variant and even links with the
dual variant.  This refutes the claim's variant-to-position assignment. -/
theorem claim_C2_counterexample :
    (dacInit 1 (fun _ => (2 : ZMod 5))).initial_pk
      ≠ (dacInit 1 (fun _ => (2 : ZMod 5))).initial_sk.map (fun x => smul x phat) ∧
    verifyChain (dacInit 1 (fun _ => (2 : ZMod 5)))
      ([[Pt.g2 3], [Pt.g1 4]],
       [⟨Pt.g2 1, Pt.g2 1, Pt.g1 1⟩, ⟨Pt.g1 2, Pt.g1 1, Pt.g2 1⟩]) = some true ∧
    verifyChainClaimed (dacInit 1 (fun _ => (2 : ZMod 5)))
      ([[Pt.g2 3], [Pt.g1 4]],
       [⟨Pt.g2 1, Pt.g2 1, Pt.g1 1⟩, ⟨Pt.g1 2, Pt.g1 1, Pt.g2 1⟩]) ≠ some true := by
  refine ⟨by decide, by decide, by decide⟩

/-- C2 (amended): the root key pair generated at DAC construction is a
dual-variant key pair (public-key points in `G1`, equal to `sk[i] * p`), and
`verify_chain` equals the amended dispatch: `sig_list[0]` is checked with the
dual variant's `verify` under `initial_pk`, and the signature over
`nym_list[i+1]` under `nym_list[i]` is checked with the primary variant when
`i` is even and the dual variant when `i` is odd. -/
theorem claim_C2_amended :
    (∀ (r ell : ℕ) (rnd0 : ℕ → ZMod r),
      (dacInit ell rnd0).initial_pk
        = (dacInit ell rnd0).initial_sk.map (fun x => smul x pgen)) ∧
    (∀ (r : ℕ) (dac : DAC r) (c : Chain r),
      verifyChain dac c = verifyChainAmended dac c) := by
  constructor
  · intro r ell rnd0
    simp [dacInit, MercurialSignatureDual.key_gen, List.map_map, Function.comp]
  · intro r dac c
    obtain ⟨nyms, sigs⟩ := c
    unfold verifyChain verifyChainAmended
    dsimp only
    by_cases hlen : nyms.length = sigs.length
    · rw [if_pos hlen, if_pos hlen]
      cases nyms with
      | nil => cases sigs <;> rfl
      | cons n0 nt =>
        cases sigs with
        | nil => rfl
        | cons s0 st =>
          dsimp only
          cases hv : MercurialSignatureDual.verify dac.initial_pk n0 s0 with
          | none => rfl
          | some b =>
            cases b with
            | false => rfl
            | true =>
              show verifyLinks true n0 nt st = verifyLinksAmended 0 n0 nt st
              rw [verifyLinksAmended_eq nt st 0 n0]
              rfl
    · rw [if_neg hlen, if_neg hlen]

/-- C7 (counterexample): over the order-5 model group, the `initial_nym`
stored by the DAC constructor is not the point list `initial_pk` -- it is
the Python tuple `(initial_pk, None)`. -/
theorem claim_C7_counterexample :
    (dacInit 1 (fun _ => (2 : ZMod 5))).initial_nym
      ≠ PyObj.pts (dacInit 1 (fun _ => (2 : ZMod 5))).initial_pk := by
  decide

/-- C7 (amended): after construction the stored `initial_nym` is the pair
`(initial_pk, None)`, whose first component is exactly the stored
`initial_pk` (a length-`ell` list of group points). -/
theorem claim_C7_amended :
    ∀ (r ell : ℕ) (rnd0 : ℕ → ZMod r),
      (dacInit ell rnd0).initial_nym
        = PyObj.tup (PyObj.pts (dacInit ell rnd0).initial_pk) PyObj.noneV := by
  intro r ell rnd0
  rfl

/-- C8 (counterexample): over the order-5 model group, `sign` called with a
length-2 secret key and a length-3 message does not fail -- it returns the
very signature computed from the zip-truncated length-2 prefix of the
message. -/
theorem claim_C8_counterexample :
    MercurialSignatureScheme.sign [(1 : ZMod 5), 1] [Pt.g1 1, Pt.g1 1, Pt.g1 1] 1
      ≠ none ∧
    MercurialSignatureScheme.sign [(1 : ZMod 5), 1] [Pt.g1 1, Pt.g1 1, Pt.g1 1] 1
      = MercurialSignatureScheme.sign [1, 1] [Pt.g1 1, Pt.g1 1] 1 := by
  constructor
  · rw [show ([Pt.g1 1, Pt.g1 1, Pt.g1 1] : List (Pt 5))
        = [(1 : ZMod 5), 1, 1].map Pt.g1 from rfl,
      mss_sign_g1 [1, 1] [1, 1, 1] (by decide) 1]
    simp
  · rfl

/-- C8 (amended): `sign` performs no length check: on a `G1` message it
fails only when the zip of the two lists is empty (one list empty, the
Python `reduce` `TypeError`), and in general its result equals the result on
the zip-truncated lists; `convert_signature` and `change_representation`
never inspect the list lengths at all (they are total). -/
theorem claim_C8_amended :
    ∀ (r : ℕ) (sk es : List (ZMod r)) (y : ZMod r),
      (MercurialSignatureScheme.sign sk (es.map Pt.g1) y = none ↔
        sk = [] ∨ es = []) ∧
      MercurialSignatureScheme.sign sk (es.map Pt.g1) y
        = MercurialSignatureScheme.sign (sk.take es.length)
            ((es.take sk.length).map Pt.g1) y := by
  intro r sk es y
  constructor
  · constructor
    · intro hnone
      by_contra hcon
      push_neg at hcon
      rw [mss_sign_g1 sk es (zip_ne_nil hcon.1 hcon.2) y] at hnone
      exact Option.noConfusion hnone
    · intro h
      rcases h with h | h <;> subst h <;>
        simp [MercurialSignatureScheme.sign, reduceAdd]
  · have hz : sk.zip (es.map Pt.g1)
        = (sk.take es.length).zip ((es.take sk.length).map Pt.g1) := by
      rw [zip_eq_zip_take sk (es.map Pt.g1)]
      simp [List.map_take]
    unfold MercurialSignatureScheme.sign
    rw [hz]

/-- C9 (counterexample): over the order-5 model group, the dual variant's
`hash_message` is not deterministic: on the same input string, two calls
whose internally sampled scalars are 1 and 2 return distinct `G2` points. -/
theorem claim_C9_counterexample :
    MercurialSignatureDual.hash_message (r := 5) "foo" 1
      ≠ MercurialSignatureDual.hash_message "foo" 2 := by
  decide

/-- C9 (amended): the primary variant's `hash_message` is a deterministic
function of its input string (it samples nothing, so two calls on equal
inputs agree); the dual variant's `hash_message` ignores its input string
and returns the freshly sampled scalar times the `G2` generator, so two
calls agree exactly when the sampled scalars coincide. -/
theorem claim_C9_amended :
    (∀ (r : ℕ) (shakeN : String → ℕ) (setX : ℕ → Option (ZMod r))
      (curveX : ZMod r) (fuel : ℕ) (s1 s2 : String), s1 = s2 →
      MercurialSignatureScheme.hash_message shakeN setX curveX fuel s1
        = MercurialSignatureScheme.hash_message shakeN setX curveX fuel s2) ∧
    (∀ (r : ℕ) (s1 s2 : String) (a b : ZMod r),
      MercurialSignatureDual.hash_message s1 a
        = MercurialSignatureDual.hash_message s2 b ↔ a = b) := by
  constructor
  · intro r shakeN setX curveX fuel s1 s2 h
    rw [h]
  · intro r s1 s2 a b
    simp [MercurialSignatureDual.hash_message, phat, smul]

/-- C9 (witness): the amended statement instantiated over the order-5 model
group: the primary hash agrees with itself on `"foo"`, and equality of two
dual hashes with equal samples reduces to equality of the samples. -/
theorem claim_C9_witness :
    MercurialSignatureScheme.hash_message (r := 5) (fun _ => 0)
        (fun n => some (n : ZMod 5)) 1 3 "foo"
      = MercurialSignatureScheme.hash_message (fun _ => 0)
        (fun n => some (n : ZMod 5)) 1 3 "foo" ∧
    (MercurialSignatureDual.hash_message (r := 5) "a" 2
      = MercurialSignatureDual.hash_message "b" 2 ↔ (2 : ZMod 5) = 2) :=
  ⟨claim_C9_amended.1 5 (fun _ => 0) (fun n => some (n : ZMod 5)) 1 3 "foo" "foo" rfl,
   claim_C9_amended.2 5 "a" "b" 2 2⟩

/-- C10: `convert_signature` never reads its `public_key` or `message`
arguments, and `change_representation` never reads its `public_key`
argument; the dual variant inherits both methods unchanged from the base
class, so the same holds there. -/
theorem claim_C10_conversions_ignore_inputs :
    (∀ (r : ℕ) (pk1 M1 pk2 M2 : List (Pt r)) (sg : Sig r) (rho psi : ZMod r),
      MercurialSignatureScheme.convert_signature pk1 M1 sg rho psi
        = MercurialSignatureScheme.convert_signature pk2 M2 sg rho psi) ∧
    (∀ (r : ℕ) (pk1 pk2 M : List (Pt r)) (sg : Sig r) (mu psi : ZMod r),
      MercurialSignatureScheme.change_representation pk1 M sg mu psi
        = MercurialSignatureScheme.change_representation pk2 M sg mu psi) ∧
    (∀ (r : ℕ) (pk M : List (Pt r)) (sg : Sig r) (rho psi : ZMod r),
      MercurialSignatureDual.convert_signature pk M sg rho psi
        = MercurialSignatureScheme.convert_signature pk M sg rho psi) ∧
    (∀ (r : ℕ) (pk M : List (Pt r)) (sg : Sig r) (mu psi : ZMod r),
      MercurialSignatureDual.change_representation pk M sg mu psi
        = MercurialSignatureScheme.change_representation pk M sg mu psi) :=
  ⟨fun _ _ _ _ _ _ _ _ => rfl, fun _ _ _ _ _ _ _ => rfl,
   fun _ _ _ _ _ _ => rfl, fun _ _ _ _ _ _ => rfl⟩

/-- C3: for every key length `ell >= 1`, every key pair returned by
`key_gen ell` (sampled scalars `rnd0`), every message of length `ell` with
entries in the variant's message group, and every nonzero internally sampled
`y`, `verify (pk, M, sign (sk, M)) = true`, for both the primary and the
dual variant. -/
theorem claim_C3_sign_verify {r : ℕ} [Fact (Nat.Prime r)]
    (ell : ℕ) (hell : 1 ≤ ell) (rnd0 : ℕ → ZMod r)
    (mp md : List (ZMod r)) (hmp : mp.length = ell) (hmd : md.length = ell)
    (y : ZMod r) (hy : y ≠ 0) :
    (∃ sg, MercurialSignatureScheme.sign
        (MercurialSignatureScheme.key_gen ell rnd0).2 (mp.map Pt.g1) y = some sg ∧
      MercurialSignatureScheme.verify
        (MercurialSignatureScheme.key_gen ell rnd0).1 (mp.map Pt.g1) sg
        = some true) ∧
    (∃ sg, MercurialSignatureDual.sign
        (MercurialSignatureDual.key_gen ell rnd0).2 (md.map Pt.g2) y = some sg ∧
      MercurialSignatureDual.verify
        (MercurialSignatureDual.key_gen ell rnd0).1 (md.map Pt.g2) sg
        = some true) := by
  have hskne : ((List.range ell).map rnd0 : List (ZMod r)) ≠ [] := by
    simp only [ne_eq, List.map_eq_nil_iff, List.range_eq_nil]
    omega
  constructor
  · have hmpne : mp ≠ [] := by
      intro h; subst h; simp at hmp; omega
    rcases mss_sign_then_verify ((List.range ell).map rnd0) mp hskne hmpne y hy with
      ⟨sg, h1, h2⟩
    refine ⟨sg, h1, ?_⟩
    have hpk : (MercurialSignatureScheme.key_gen (r := r) ell rnd0).1
        = ((List.range ell).map rnd0).map (fun x => smul x phat) := by
      simp [MercurialSignatureScheme.key_gen, List.map_map, Function.comp]
    rw [hpk]
    exact h2
  · have hmdne : md ≠ [] := by
      intro h; subst h; simp at hmd; omega
    rcases msd_sign_then_verify ((List.range ell).map rnd0) md hskne hmdne y hy with
      ⟨sg, h1, h2⟩
    refine ⟨sg, h1, ?_⟩
    have hpk : (MercurialSignatureDual.key_gen (r := r) ell rnd0).1
        = ((List.range ell).map rnd0).map (fun x => smul x pgen) := by
      simp [MercurialSignatureDual.key_gen, List.map_map, Function.comp]
    rw [hpk]
    exact h2

/-- C3 (witness): the statement instantiated over the order-5 model group
with `ell = 1`, sampled key scalar 2, message exponent 3 and `y = 2`. -/
theorem claim_C3_witness :
    (∃ sg, MercurialSignatureScheme.sign
        (MercurialSignatureScheme.key_gen 1 (fun _ => (2 : ZMod 5))).2
        ([(3 : ZMod 5)].map Pt.g1) 2 = some sg ∧
      MercurialSignatureScheme.verify
        (MercurialSignatureScheme.key_gen 1 (fun _ => (2 : ZMod 5))).1
        ([(3 : ZMod 5)].map Pt.g1) sg = some true) ∧
    (∃ sg, MercurialSignatureDual.sign
        (MercurialSignatureDual.key_gen 1 (fun _ => (2 : ZMod 5))).2
        ([(3 : ZMod 5)].map Pt.g2) 2 = some sg ∧
      MercurialSignatureDual.verify
        (MercurialSignatureDual.key_gen 1 (fun _ => (2 : ZMod 5))).1
        ([(3 : ZMod 5)].map Pt.g2) sg = some true) :=
  claim_C3_sign_verify 1 (by norm_num) (fun _ => 2) [3] [3] rfl rfl 2 (by decide)

/-- C4: conversion correctness -- with `sigma = sign (sk, M)` (sampled
nonzero `y`), `pk2 = convert_public_key (pk, rho)` and
`sigma2 = convert_signature (pk, M, sigma, rho)` (sampled nonzero `psi`),
`verify (pk2, M, sigma2) = true` for every nonzero `rho`, in both
variants. -/
theorem claim_C4_conversion {r : ℕ} [Fact (Nat.Prime r)]
    (ell : ℕ) (hell : 1 ≤ ell) (rnd0 : ℕ → ZMod r)
    (mp md : List (ZMod r)) (hmp : mp.length = ell) (hmd : md.length = ell)
    (y : ZMod r) (hy : y ≠ 0) (rho : ZMod r) (hrho : rho ≠ 0)
    (psi : ZMod r) (hpsi : psi ≠ 0) :
    (∃ sg, MercurialSignatureScheme.sign
        (MercurialSignatureScheme.key_gen ell rnd0).2 (mp.map Pt.g1) y = some sg ∧
      MercurialSignatureScheme.verify
        (MercurialSignatureScheme.convert_public_key
          (MercurialSignatureScheme.key_gen ell rnd0).1 rho)
        (mp.map Pt.g1)
        (MercurialSignatureScheme.convert_signature
          (MercurialSignatureScheme.key_gen ell rnd0).1 (mp.map Pt.g1) sg rho psi)
        = some true) ∧
    (∃ sg, MercurialSignatureDual.sign
        (MercurialSignatureDual.key_gen ell rnd0).2 (md.map Pt.g2) y = some sg ∧
      MercurialSignatureDual.verify
        (MercurialSignatureDual.convert_public_key
          (MercurialSignatureDual.key_gen ell rnd0).1 rho)
        (md.map Pt.g2)
        (MercurialSignatureDual.convert_signature
          (MercurialSignatureDual.key_gen ell rnd0).1 (md.map Pt.g2) sg rho psi)
        = some true) := by
  have hskne : ((List.range ell).map rnd0 : List (ZMod r)) ≠ [] := by
    simp only [ne_eq, List.map_eq_nil_iff, List.range_eq_nil]
    omega
  constructor
  · have hmpne : mp ≠ [] := by
      intro h; subst h; simp at hmp; omega
    rcases mss_sign_then_verify ((List.range ell).map rnd0) mp hskne hmpne y hy with
      ⟨sg, h1, h2⟩
    have hpk : (MercurialSignatureScheme.key_gen (r := r) ell rnd0).1
        = ((List.range ell).map rnd0).map (fun x => smul x phat) := by
      simp [MercurialSignatureScheme.key_gen, List.map_map, Function.comp]
    refine ⟨sg, h1, ?_⟩
    rw [hpk]
    exact mss_verify_convert rho hpsi h2
  · have hmdne : md ≠ [] := by
      intro h; subst h; simp at hmd; omega
    rcases msd_sign_then_verify ((List.range ell).map rnd0) md hskne hmdne y hy with
      ⟨sg, h1, h2⟩
    have hpk : (MercurialSignatureDual.key_gen (r := r) ell rnd0).1
        = ((List.range ell).map rnd0).map (fun x => smul x pgen) := by
      simp [MercurialSignatureDual.key_gen, List.map_map, Function.comp]
    refine ⟨sg, h1, ?_⟩
    rw [hpk]
    exact msd_verify_convert rho hpsi h2

/-- C4 (witness): the statement instantiated over the order-5 model group
with `ell = 1`, key scalar 2, message exponent 3, `y = 2`, `rho = 2`,
`psi = 3`. -/
theorem claim_C4_witness :
    (∃ sg, MercurialSignatureScheme.sign
        (MercurialSignatureScheme.key_gen 1 (fun _ => (2 : ZMod 5))).2
        ([(3 : ZMod 5)].map Pt.g1) 2 = some sg ∧
      MercurialSignatureScheme.verify
        (MercurialSignatureScheme.convert_public_key
          (MercurialSignatureScheme.key_gen 1 (fun _ => (2 : ZMod 5))).1 2)
        ([(3 : ZMod 5)].map Pt.g1)
        (MercurialSignatureScheme.convert_signature
          (MercurialSignatureScheme.key_gen 1 (fun _ => (2 : ZMod 5))).1
          ([(3 : ZMod 5)].map Pt.g1) sg 2 3)
        = some true) ∧
    (∃ sg, MercurialSignatureDual.sign
        (MercurialSignatureDual.key_gen 1 (fun _ => (2 : ZMod 5))).2
        ([(3 : ZMod 5)].map Pt.g2) 2 = some sg ∧
      MercurialSignatureDual.verify
        (MercurialSignatureDual.convert_public_key
          (MercurialSignatureDual.key_gen 1 (fun _ => (2 : ZMod 5))).1 2)
        ([(3 : ZMod 5)].map Pt.g2)
        (MercurialSignatureDual.convert_signature
          (MercurialSignatureDual.key_gen 1 (fun _ => (2 : ZMod 5))).1
          ([(3 : ZMod 5)].map Pt.g2) sg 2 3)
        = some true) :=
  claim_C4_conversion 1 (by norm_num) (fun _ => 2) [3] [3] rfl rfl 2 (by decide)
    2 (by decide) 3 (by decide)

/-- C5: change-of-representation correctness -- with `sigma = sign (sk, M)`
(sampled nonzero `y`) and
`(M2, sigma2) = change_representation (pk, M, sigma, mu)` (sampled nonzero
`psi`), `verify (pk, M2, sigma2) = true` for every nonzero `mu`, in both
variants. -/
theorem claim_C5_change_representation {r : ℕ} [Fact (Nat.Prime r)]
    (ell : ℕ) (hell : 1 ≤ ell) (rnd0 : ℕ → ZMod r)
    (mp md : List (ZMod r)) (hmp : mp.length = ell) (hmd : md.length = ell)
    (y : ZMod r) (hy : y ≠ 0) (mu : ZMod r) (hmu : mu ≠ 0)
    (psi : ZMod r) (hpsi : psi ≠ 0) :
    (∃ sg, MercurialSignatureScheme.sign
        (MercurialSignatureScheme.key_gen ell rnd0).2 (mp.map Pt.g1) y = some sg ∧
      MercurialSignatureScheme.verify
        (MercurialSignatureScheme.key_gen ell rnd0).1
        (MercurialSignatureScheme.change_representation
          (MercurialSignatureScheme.key_gen ell rnd0).1 (mp.map Pt.g1) sg mu psi).1
        (MercurialSignatureScheme.change_representation
          (MercurialSignatureScheme.key_gen ell rnd0).1 (mp.map Pt.g1) sg mu psi).2
        = some true) ∧
    (∃ sg, MercurialSignatureDual.sign
        (MercurialSignatureDual.key_gen ell rnd0).2 (md.map Pt.g2) y = some sg ∧
      MercurialSignatureDual.verify
        (MercurialSignatureDual.key_gen ell rnd0).1
        (MercurialSignatureDual.change_representation
          (MercurialSignatureDual.key_gen ell rnd0).1 (md.map Pt.g2) sg mu psi).1
        (MercurialSignatureDual.change_representation
          (MercurialSignatureDual.key_gen ell rnd0).1 (md.map Pt.g2) sg mu psi).2
        = some true) := by
  have hskne : ((List.range ell).map rnd0 : List (ZMod r)) ≠ [] := by
    simp only [ne_eq, List.map_eq_nil_iff, List.range_eq_nil]
    omega
  constructor
  · have hmpne : mp ≠ [] := by
      intro h; subst h; simp at hmp; omega
    rcases mss_sign_then_verify ((List.range ell).map rnd0) mp hskne hmpne y hy with
      ⟨sg, h1, h2⟩
    have hpk : (MercurialSignatureScheme.key_gen (r := r) ell rnd0).1
        = ((List.range ell).map rnd0).map (fun x => smul x phat) := by
      simp [MercurialSignatureScheme.key_gen, List.map_map, Function.comp]
    refine ⟨sg, h1, ?_⟩
    rw [hpk]
    exact mss_verify_changeRep mu hpsi h2
  · have hmdne : md ≠ [] := by
      intro h; subst h; simp at hmd; omega
    rcases msd_sign_then_verify ((List.range ell).map rnd0) md hskne hmdne y hy with
      ⟨sg, h1, h2⟩
    have hpk : (MercurialSignatureDual.key_gen (r := r) ell rnd0).1
        = ((List.range ell).map rnd0).map (fun x => smul x pgen) := by
      simp [MercurialSignatureDual.key_gen, List.map_map, Function.comp]
    refine ⟨sg, h1, ?_⟩
    rw [hpk]
    exact msd_verify_changeRep mu hpsi h2

/-- C5 (witness): the statement instantiated over the order-5 model group
with `ell = 1`, key scalar 2, message exponent 3, `y = 2`, `mu = 2`,
`psi = 3`. -/
theorem claim_C5_witness :
    (∃ sg, MercurialSignatureScheme.sign
        (MercurialSignatureScheme.key_gen 1 (fun _ => (2 : ZMod 5))).2
        ([(3 : ZMod 5)].map Pt.g1) 2 = some sg ∧
      MercurialSignatureScheme.verify
        (MercurialSignatureScheme.key_gen 1 (fun _ => (2 : ZMod 5))).1
        (MercurialSignatureScheme.change_representation
          (MercurialSignatureScheme.key_gen 1 (fun _ => (2 : ZMod 5))).1
          ([(3 : ZMod 5)].map Pt.g1) sg 2 3).1
        (MercurialSignatureScheme.change_representation
          (MercurialSignatureScheme.key_gen 1 (fun _ => (2 : ZMod 5))).1
          ([(3 : ZMod 5)].map Pt.g1) sg 2 3).2
        = some true) ∧
    (∃ sg, MercurialSignatureDual.sign
        (MercurialSignatureDual.key_gen 1 (fun _ => (2 : ZMod 5))).2
        ([(3 : ZMod 5)].map Pt.g2) 2 = some sg ∧
      MercurialSignatureDual.verify
        (MercurialSignatureDual.key_gen 1 (fun _ => (2 : ZMod 5))).1
        (MercurialSignatureDual.change_representation
          (MercurialSignatureDual.key_gen 1 (fun _ => (2 : ZMod 5))).1
          ([(3 : ZMod 5)].map Pt.g2) sg 2 3).1
        (MercurialSignatureDual.change_representation
          (MercurialSignatureDual.key_gen 1 (fun _ => (2 : ZMod 5))).1
          ([(3 : ZMod 5)].map Pt.g2) sg 2 3).2
        = some true) :=
  claim_C5_change_representation 1 (by norm_num) (fun _ => 2) [3] [3] rfl rfl
    2 (by decide) 2 (by decide) 3 (by decide)

/-- C1: chain correctness.  For every key length `ell >= 1` and every list
of `k >= 0` legal `issue_next` steps following `issue_first` -- the first
pseudonym and every appended pseudonym of key-pair shape with the variant
parity required for their chain position, each `issue_next` passed the
secret key matching the chain's current last pseudonym, all internally
sampled `psi` and signing `y` nonzero -- the whole sequence succeeds and
`verify_chain` returns true on the resulting chain of length `k + 1`. -/
theorem claim_C1_chain_correctness {r : ℕ} [Fact (Nat.Prime r)]
    (ell : ℕ) (hell : 1 ≤ ell) (rnd0 : ℕ → ZMod r)
    (sk1 : List (ZMod r)) (hsk1 : sk1.length = ell)
    (y1 : ZMod r) (hy1 : y1 ≠ 0)
    (steps : List (IssueStep r))
    (hsteps : ∀ s ∈ steps, s.sk.length = ell ∧ s.psi0 ≠ 0 ∧ s.ys ≠ 0 ∧
      ∀ i, (s.rnd i).1 ≠ 0 ∧ (s.rnd i).2.2 ≠ 0) :
    ∃ c, buildChain (dacInit ell rnd0) sk1 y1 steps = some c ∧
      verifyChain (dacInit ell rnd0) c = some true ∧
      c.1.length = steps.length + 1 := by
  have hsk1ne : sk1 ≠ [] := by
    intro h; subst h; simp at hsk1; omega
  rcases issueFirst_sound ell hell rnd0 sk1 hsk1ne y1 hy1 with ⟨sg, hf, hv1⟩
  have hlast1 : ([sk1.map (fun x => smul x phat)] : List (List (Pt r))).getLast?
      = some (sk1.map (fun x => smul x
        (if ([sk1.map (fun x => smul x phat)] : List (List (Pt r))).length % 2 = 1
         then phat else pgen))) := by
    simp
  have hsteps2 : ∀ s ∈ steps, s.sk ≠ [] ∧ s.psi0 ≠ 0 ∧ s.ys ≠ 0 ∧
      ∀ i, (s.rnd i).1 ≠ 0 ∧ (s.rnd i).2.2 ≠ 0 := by
    intro s hs
    rcases hsteps s hs with ⟨hl, h2, h3, h4⟩
    refine ⟨?_, h2, h3, h4⟩
    intro h
    rw [h] at hl
    simp at hl
    omega
  rcases buildSteps_sound (dacInit ell rnd0) steps sk1
    ([sk1.map (fun x => smul x phat)], [sg]) hv1 hlast1 hsk1ne hsteps2 with
    ⟨c2, hb, hv2, hlen⟩
  refine ⟨c2, ?_, hv2, ?_⟩
  · unfold buildChain
    rw [hf]
    exact hb
  · rw [hlen]
    simp
    omega

/-- C1 (witness): a length-2 chain over the order-5 model group --
`issue_first` on the pseudonym of secret key `[3]`, then one `issue_next`
adding the user with secret key `[2]`, all sampled scalars 1 or 2. -/
theorem claim_C1_witness :
    ∃ c, buildChain (dacInit 1 (fun _ => (2 : ZMod 5))) [3] 1
        [⟨[2], 1, 1, fun _ => (1, 1, 1), 1⟩] = some c ∧
      verifyChain (dacInit 1 (fun _ => (2 : ZMod 5))) c = some true ∧
      c.1.length = 2 := by
  have hsteps : ∀ s ∈ ([⟨[2], 1, 1, fun _ => (1, 1, 1), 1⟩] : List (IssueStep 5)),
      s.sk.length = 1 ∧ s.psi0 ≠ 0 ∧ s.ys ≠ 0 ∧
      ∀ i, (s.rnd i).1 ≠ 0 ∧ (s.rnd i).2.2 ≠ 0 := by
    intro s hs
    rw [List.mem_singleton] at hs
    subst hs
    exact ⟨rfl, by decide, by decide, fun i => ⟨one_ne_zero, one_ne_zero⟩⟩
  have h := claim_C1_chain_correctness (r := 5) 1 (by norm_num) (fun _ => 2)
    [3] rfl 1 (by decide) [⟨[2], 1, 1, fun _ => (1, 1, 1), 1⟩] hsteps
  simpa using h

/-- C6: assertion validity in `issue_next`.  For every input chain accepted
by `verify_chain`, every signing key whose converted form matches the
chain's last pseudonym, and every fresh pseudonym of the correct parity
(with all internally sampled `psi` and the signing `y` nonzero), no internal
assert of `issue_next` fires and no group operation raises: the call returns
a chain (`isSome`), since every failing assert is `none` in the
embedding. -/
theorem claim_C6_issue_next_asserts {r : ℕ} [Fact (Nat.Prime r)] (dac : DAC r)
    (nyms : List (List (Pt r))) (sigs : List (Sig r))
    (skL skN : List (ZMod r)) (newNym : List (Pt r))
    (hchain : verifyChain dac (nyms, sigs) = some true)
    (hlast : nyms.getLast? = some (skL.map (fun x =>
      smul x (if nyms.length % 2 = 1 then phat else pgen))))
    (hnew : newNym = skN.map (fun x =>
      smul x (if nyms.length % 2 = 1 then pgen else phat)))
    (hskL : skL ≠ []) (hskN : skN ≠ [])
    (rho0 psi0 : ZMod r) (hpsi0 : psi0 ≠ 0)
    (rnd : ℕ → ZMod r × ZMod r × ZMod r)
    (hrnd : ∀ i, (rnd i).1 ≠ 0 ∧ (rnd i).2.2 ≠ 0)
    (ys : ZMod r) (hys : ys ≠ 0) :
    (issueNext dac (nyms, sigs) newNym skL rho0 psi0 rnd ys).isSome = true := by
  rcases issueNext_sound dac nyms sigs skL skN newNym hchain hlast hnew hskL hskN
    rho0 psi0 hpsi0 rnd hrnd ys hys with ⟨c2, heq, _⟩
  rw [heq]
  rfl

/-- C6 (witness): a concrete `issue_next` call over the order-5 model group
on a verifying one-link chain. -/
theorem claim_C6_witness :
    (issueNext (dacInit 1 (fun _ => (2 : ZMod 5)))
      ([[Pt.g2 3]], [⟨Pt.g2 1, Pt.g2 1, Pt.g1 1⟩])
      [Pt.g1 4] [3] 1 1 (fun _ => (1, 1, 1)) 1).isSome = true :=
  claim_C6_issue_next_asserts (dacInit 1 (fun _ => (2 : ZMod 5)))
    [[Pt.g2 3]] [⟨Pt.g2 1, Pt.g2 1, Pt.g1 1⟩] [3] [4] [Pt.g1 4]
    (by decide) (by decide) (by decide) (by decide) (by decide)
    1 1 (by decide) (fun _ => (1, 1, 1)) (fun i => ⟨one_ne_zero, one_ne_zero⟩)
    1 (by decide)

end Claims

end MercurialSignatures
